import Mathlib

/-!
# noisicaa: the sound-file processor and the spec hot-swap

A shallow embedding of `noisicaa/audioproc/vm/processor_sound_file.cpp`
(`setup`, `connect_port`, `run`) and the properties of its playback state
machine, followed by a model of the spec hot-swap protocol over the three
atomic slots that `builtin_nodes/midi_looper/processor.h` declares.

Modelling conventions.

* A `float` sample is its IEEE-754 bit pattern (`Float32`).  The processor only
  copies samples and stores the literal `0.0`, whose pattern is `0`.
* `AudioFile` (declared in a header outside this development) is taken as its
  observable interface: `num_samples()`, `num_channels()` and the sample stored
  at a channel and index.  A read outside `num_channels()` / `num_samples()` is
  undefined behaviour in C++; here it is an explicit `Fault`.
* `_pos` is a `uint32_t`: `_pos++` is `(_pos + 1) % 2^32`.  The length of a
  source is a `uint32_t` as well; statements that depend on the increment not
  wrapping carry the hypothesis `num_samples < 4294967296`.
* `run` computes `1 % num_channels()` before its loop, so statements about a
  successful run are about sources with at least one channel.
* The two output ports are the streams of values stored through `l_out` and
  `r_out`, in order (`*l_out++ = ...`).
* `ctxt->out_messages` is the list of messages pushed so far.  `run_blocks` is the
  host calling `run` block after block, each with a new `BlockContext`.
-/

namespace noisicaa

/-- A 32-bit float, as its bit pattern. -/
structure Float32 where
  bits : Nat
deriving DecidableEq, Repr

/-- The float written by `*l_out++ = 0.0`. -/
def Float32.zero : Float32 := ⟨0⟩

/-- A raw buffer address. -/
abbrev BufferPtr := Nat

/-- The result of a fallible call: `Status::Ok()` or an error built by
`ERROR_STATUS(fmt, arg)`. -/
inductive Status where
  | Ok : Status
  | Error (fmt : String) (arg : Nat) : Status
deriving DecidableEq, Repr

/-- The predicate `Status::is_error()`. -/
def Status.is_error : Status → Bool
  | Status.Ok => false
  | Status.Error _ _ => true

/-- The macro `ERROR_STATUS(fmt, arg)`. -/
def ERROR_STATUS (fmt : String) (arg : Nat) : Status := Status.Error fmt arg

/-- A value or an error status (`StatusOr<T>`). -/
abbrev StatusOr (α : Type) := Except Status α

/-- Undefined behaviour of the C++ code, made explicit. -/
inductive Fault where
  | NullAudioFile : Fault
  | DivisionByZero : Fault
  | ChannelOutOfRange (ch : Nat) : Fault
  | SampleOutOfRange (idx : Nat) : Fault
deriving DecidableEq, Repr

/-- The interface of `AudioFile` used by the processor. -/
structure AudioFile where
  num_samples : Nat
  num_channels : Nat
  data : Nat → Nat → Float32

/-- The call `channel_data(ch)`: a pointer to the samples of channel `ch`, represented
by the channel index. -/
def AudioFile.channel_data (af : AudioFile) (ch : Nat) : Except Fault Nat :=
  if ch < af.num_channels then Except.ok ch else Except.error (Fault.ChannelOutOfRange ch)

/-- The read `in[idx]` through a pointer obtained from `channel_data(ch)`. -/
def AudioFile.read (af : AudioFile) (ch idx : Nat) : Except Fault Float32 :=
  if idx < af.num_samples then Except.ok (af.data ch idx)
  else Except.error (Fault.SampleOutOfRange idx)

/-- Messages a processor pushes to `ctxt->out_messages`. -/
inductive Message where
  | SoundFileCompleteMessage (node_id : String) : Message
deriving DecidableEq, Repr

/-- The part of `BlockContext` used by `run`. -/
structure BlockContext where
  block_size : Nat
  out_messages : List Message
deriving DecidableEq, Repr

/-- The fields of `ProcessorSoundFile`. -/
structure ProcessorSoundFile where
  node_id : String
  _audio_file : Option AudioFile
  _loop : Bool
  _playing : Bool
  _pos : Nat
  _buf : Fin 2 → BufferPtr

/-- The method `ProcessorSoundFile::setup`.  The calls into code outside this file are taken
as their results: `base` is what `Processor::setup(spec)` returned, `stor_path`
what `get_string_parameter("sound_file_path")` returned, and `load_audio_file`
is the loader of the host data. -/
def ProcessorSoundFile.setup (self : ProcessorSoundFile) (base : Status)
    (stor_path : StatusOr String) (load_audio_file : String → StatusOr AudioFile) :
    Status × ProcessorSoundFile :=
  match base with
  | Status.Error fmt arg => (Status.Error fmt arg, self)
  | Status.Ok =>
    match stor_path with
    | Except.error e => (e, self)
    | Except.ok path =>
      match load_audio_file path with
      | Except.error e => (e, self)
      | Except.ok audio_file =>
        (Status.Ok,
          { self with _audio_file := some audio_file, _loop := false, _playing := true,
                      _pos := 0 })

/-- The method `ProcessorSoundFile::connect_port`. -/
def ProcessorSoundFile.connect_port (self : ProcessorSoundFile) (port_idx : Nat)
    (buf : BufferPtr) : Status × ProcessorSoundFile :=
  if h : port_idx > 1 then
    (ERROR_STATUS "Invalid port index %d" port_idx, self)
  else
    (Status.Ok,
      { self with _buf := Function.update self._buf ⟨port_idx, by omega⟩ buf })

/-- What the loop of `run` mutates: the processor's fields, the message queue of
the block context, and the samples stored so far through `l_out` and `r_out`. -/
structure RunState where
  self : ProcessorSoundFile
  out_messages : List Message
  l_out : List Float32
  r_out : List Float32

/-- The tail of the loop body of `run`: copy one sample per port and advance `_pos`. -/
def ProcessorSoundFile.run_copy (af : AudioFile) (l_in r_in : Nat) (st : RunState) :
    Except Fault RunState :=
  match af.read l_in st.self._pos with
  | Except.error e => Except.error e
  | Except.ok l =>
    match af.read r_in st.self._pos with
    | Except.error e => Except.error e
    | Except.ok r =>
      Except.ok
        { st with
          self := { st.self with _pos := (st.self._pos + 1) % 4294967296 }
          l_out := st.l_out ++ [l]
          r_out := st.r_out ++ [r] }

/-- One iteration of the loop of `run`. -/
def ProcessorSoundFile.run_body (af : AudioFile) (l_in r_in : Nat) (st : RunState) :
    Except Fault RunState :=
  if st.self._pos ≥ af.num_samples then
    if st.self._loop then
      ProcessorSoundFile.run_copy af l_in r_in { st with self := { st.self with _pos := 0 } }
    else
      let st1 : RunState :=
        if st.self._playing then
          { st with
            self := { st.self with _playing := false }
            out_messages :=
              st.out_messages ++ [Message.SoundFileCompleteMessage st.self.node_id] }
        else st
      Except.ok
        { st1 with
          l_out := st1.l_out ++ [Float32.zero]
          r_out := st1.r_out ++ [Float32.zero] }
  else
    ProcessorSoundFile.run_copy af l_in r_in st

/-- The loop `for (i = 0; i < block_size; ++i)` of `run`. -/
def ProcessorSoundFile.run_loop (af : AudioFile) (l_in r_in : Nat) :
    Nat → RunState → Except Fault RunState
  | 0, st => Except.ok st
  | n + 1, st =>
    match ProcessorSoundFile.run_body af l_in r_in st with
    | Except.error e => Except.error e
    | Except.ok st1 => ProcessorSoundFile.run_loop af l_in r_in n st1

/-- What one call of `run` leaves behind. -/
structure RunResult where
  self : ProcessorSoundFile
  ctxt : BlockContext
  l_out : List Float32
  r_out : List Float32
  status : Status

/-- The method `ProcessorSoundFile::run`. -/
def ProcessorSoundFile.run (self : ProcessorSoundFile) (ctxt : BlockContext) :
    Except Fault RunResult :=
  match self._audio_file with
  | none => Except.error Fault.NullAudioFile
  | some af =>
    match af.channel_data 0 with
    | Except.error e => Except.error e
    | Except.ok l_in =>
      if af.num_channels = 0 then Except.error Fault.DivisionByZero
      else
        match af.channel_data (1 % af.num_channels) with
        | Except.error e => Except.error e
        | Except.ok r_in =>
          match ProcessorSoundFile.run_loop af l_in r_in ctxt.block_size
              ⟨self, ctxt.out_messages, [], []⟩ with
          | Except.error e => Except.error e
          | Except.ok st =>
            Except.ok
              { self := st.self
                ctxt := { ctxt with out_messages := st.out_messages }
                l_out := st.l_out
                r_out := st.r_out
                status := Status.Ok }

/-- What one block produced: the two output ports and the messages pushed to the
(fresh, empty) queue of that block's context. -/
structure BlockOut where
  l_out : List Float32
  r_out : List Float32
  messages : List Message
deriving DecidableEq, Repr

/-- The host calling `run` once per block, each block with its own `BlockContext`
of the given size and an empty message queue. -/
def ProcessorSoundFile.run_blocks :
    ProcessorSoundFile → List Nat → Except Fault (ProcessorSoundFile × List BlockOut)
  | self, [] => Except.ok (self, [])
  | self, block_size :: rest =>
    match self.run ⟨block_size, []⟩ with
    | Except.error e => Except.error e
    | Except.ok r =>
      match ProcessorSoundFile.run_blocks r.self rest with
      | Except.error e => Except.error e
      | Except.ok (self1, outs) => Except.ok (self1, ⟨r.l_out, r.r_out, r.ctxt.out_messages⟩ :: outs)

/-! ## Closed forms used in the statements -/

/-- The sample a non-looping block started at position `p` stores at offset `i`. -/
def sample_or_zero (af : AudioFile) (ch p i : Nat) : Float32 :=
  if p + i < af.num_samples then af.data ch (p + i) else Float32.zero

/-- The sample a looping run started at position `p` stores at offset `i`. -/
def sample_mod (af : AudioFile) (ch p i : Nat) : Float32 :=
  af.data ch ((p + i) % af.num_samples)

/-- The position a looping run of `n` samples started at `p` ends at. -/
def loop_pos (L p n : Nat) : Nat :=
  if p + n ≤ L then p + n else (p + n - 1) % L + 1

/-- Block number `k` (counted from 0) of a non-looping playback from the start of the
file with constant block size `B`: the samples of the file from index `k * B`,
silence from the end of the file on, and the completion message in block
`num_samples / B`. -/
def const_block (af : AudioFile) (nid : String) (B k : Nat) : BlockOut :=
  ⟨(List.range B).map (sample_or_zero af 0 (k * B)),
    (List.range B).map (sample_or_zero af (1 % af.num_channels) (k * B)),
    if k = af.num_samples / B then [Message.SoundFileCompleteMessage nid] else []⟩

/-! ## Example sources and processors -/

/-- A mono source of four samples. -/
def mono4 : AudioFile := ⟨4, 1, fun ch i => ⟨100 * (ch + 1) + i⟩⟩

/-- A stereo source of three samples. -/
def stereo3 : AudioFile := ⟨3, 2, fun ch i => ⟨100 * (ch + 1) + i⟩⟩

/-- A processor on which `setup` has not run yet. -/
def fresh : ProcessorSoundFile := ⟨"node", none, false, false, 0, fun _ => 0⟩

/-- A processor playing `af` at position `pos`. -/
def player (af : AudioFile) (loop : Bool) (pos : Nat) : ProcessorSoundFile :=
  ⟨"node", some af, loop, true, pos, fun _ => 0⟩

/-- A processor that has played `af` to its end and pushed the completion message. -/
def stopped (af : AudioFile) : ProcessorSoundFile :=
  ⟨"node", some af, false, false, af.num_samples, fun _ => 0⟩

/-- A loader that knows one file. -/
def load_one (af : AudioFile) : String → StatusOr AudioFile :=
  fun path => if path = "a.wav" then Except.ok af else Except.error (Status.Error "not found" 0)

/-! ## Spec hot-swap of `ProcessorMidiLooper`

`processor.h` declares the three atomic slots `_next_spec`, `_current_spec` and
`_old_spec`; the code that uses them (`set_spec`, `process_block_internal`) is not
part of this development.  The protocol is modelled from its description: a
spec is identified by its generation (the first published spec is generation 1),
and the two threads are interleaved as a list of atomic events. -/

/-- Modelled from the spec: the state of the hot-swap protocol, whose code
(`ProcessorMidiLooper::set_spec`, `process_block_internal`) is missing.  The three
slots hold generations (`none` is the null pointer).  The other fields record what
the two threads did: `published` is the number of specs published, `freed` the
generations the control thread has reclaimed, `in_block` whether the real-time
thread is inside a block, `held` the generation it dereferences during that block,
`observed` the generations it has dereferenced so far, `epoch` the block-boundary
counter and `swap_epoch` its value at the last adoption. -/
structure SwapState where
  _next_spec : Option Nat
  _current_spec : Option Nat
  _old_spec : Option Nat
  published : Nat
  freed : List Nat
  in_block : Bool
  held : Option Nat
  observed : List Nat
  epoch : Nat
  swap_epoch : Nat
deriving DecidableEq, Repr

/-- Modelled from the spec: the processor before any spec is published (the code
that initialises the slots is missing): all three slots empty. -/
def SwapState.init : SwapState :=
  ⟨none, none, none, 0, [], false, none, [], 0, 0⟩

/-- Modelled from the spec: publish (`set_spec`, missing).  The control thread
allocates a new spec, of the next generation, and stores it into `next`.  A pending
generation it displaces was never adopted; it is counted as reclaimed at once, so
that the safety statement covers it as well. -/
def SwapState.publish (s : SwapState) : SwapState :=
  { s with
    _next_spec := some (s.published + 1)
    published := s.published + 1
    freed :=
      match s._next_spec with
      | some g => g :: s.freed
      | none => s.freed }

/-- Modelled from the spec: adopt (the head of `process_block_internal`, missing).  At
the safe point between blocks the real-time thread moves `next` into `current` and
the prior `current` into `old`; it frees nothing. -/
def SwapState.adopt (s : SwapState) : SwapState :=
  match s._next_spec with
  | some g =>
    { s with
      _next_spec := none
      _current_spec := some g
      _old_spec := s._current_spec
      swap_epoch := s.epoch }
  | none => s

/-- Modelled from the spec: the start of a block (`process_block_internal`, missing).
The real-time thread adopts a pending spec and then reads exactly one generation,
the current one, for the whole run. -/
def SwapState.block_begin (s : SwapState) : SwapState :=
  if s.in_block then s
  else
    { s.adopt with
      in_block := true
      held := s.adopt._current_spec
      observed :=
        match s.adopt._current_spec with
        | some g => s.adopt.observed ++ [g]
        | none => s.adopt.observed }

/-- Modelled from the spec: the end of a block (`process_block_internal`, missing).  The
real-time thread drops its reference and one more block boundary has elapsed. -/
def SwapState.block_end (s : SwapState) : SwapState :=
  if s.in_block then { s with in_block := false, held := none, epoch := s.epoch + 1 }
  else s

/-- Modelled from the spec: reclaim (`set_spec`, missing).  The control thread frees
the `old` generation only after at least one full block boundary has elapsed since
the swap. -/
def SwapState.reclaim (s : SwapState) : SwapState :=
  match s._old_spec with
  | some g =>
    if s.swap_epoch < s.epoch then { s with _old_spec := none, freed := g :: s.freed }
    else s
  | none => s

/-- Modelled from the spec: the atomic steps of the control thread (`publish`,
`reclaim`) and of the real-time thread (`block_begin`, `block_end`). -/
inductive Event where
  | publish : Event
  | reclaim : Event
  | block_begin : Event
  | block_end : Event
deriving DecidableEq, Repr

/-- Modelled from the spec: one step of the interleaving. -/
def SwapState.step (s : SwapState) : Event → SwapState
  | Event.publish => s.publish
  | Event.reclaim => s.reclaim
  | Event.block_begin => s.block_begin
  | Event.block_end => s.block_end

/-- Modelled from the spec: an interleaving of the two threads, from the initial
state. -/
def run_schedule (sched : List Event) : SwapState :=
  sched.foldl SwapState.step SwapState.init

/-- The facts about the slots that every step keeps: generations move from `next` to
`current` to `old` in increasing order, nothing in `next` or `current` is reclaimed,
the real-time thread holds the current generation and only inside a block, and what
it has observed is sorted and bounded by the current generation. -/
structure SwapInv (s : SwapState) : Prop where
  freed_le : ∀ g ∈ s.freed, g ≤ s.published
  next_le : ∀ n, s._next_spec = some n → n ≤ s.published
  next_live : ∀ n, s._next_spec = some n → n ∉ s.freed
  cur_lt_next : ∀ c n, s._current_spec = some c → s._next_spec = some n → c < n
  cur_le : ∀ c, s._current_spec = some c → c ≤ s.published
  cur_live : ∀ c, s._current_spec = some c → c ∉ s.freed
  old_lt_cur : ∀ o, s._old_spec = some o → ∃ c, s._current_spec = some c ∧ o < c
  held_cur : ∀ h, s.held = some h → s._current_spec = some h
  held_none : s.in_block = false → s.held = none
  obs_le : ∀ g ∈ s.observed, ∃ c, s._current_spec = some c ∧ g ≤ c
  obs_sorted : List.Pairwise (fun a b => a ≤ b) s.observed

/-- A schedule in which three specs are published while blocks run. -/
def sched3 : List Event :=
  [Event.publish, Event.block_begin, Event.publish, Event.publish, Event.block_end,
    Event.reclaim, Event.block_begin, Event.block_end, Event.reclaim, Event.block_begin]

/-! ## The loop of `run` -/

/-- Mapping over `range (n + 1)`: the first element, then the shifted map over `range n`. -/
theorem range_succ_map_shift {α : Type} (g g1 : Nat → α) (n : Nat)
    (h : ∀ i, g1 i = g (i + 1)) :
    (List.range (n + 1)).map g = g 0 :: (List.range n).map g1 := by
  rw [List.range_succ_eq_map, List.map_cons, List.map_map]
  congr 1
  apply List.map_congr_left
  intro i _
  simp [h]

/-- Starting one position later shifts the offsets by one. -/
theorem sample_or_zero_shift (af : AudioFile) (ch p i : Nat) :
    sample_or_zero af ch (p + 1) i = sample_or_zero af ch p (i + 1) := by
  unfold sample_or_zero
  have : p + 1 + i = p + (i + 1) := by omega
  rw [this]

/-- At or past the end of the source every sample is silence. -/
theorem sample_or_zero_of_le (af : AudioFile) (ch p i : Nat) (h : af.num_samples ≤ p) :
    sample_or_zero af ch p i = Float32.zero := by
  unfold sample_or_zero
  rw [if_neg (by omega)]

/-- Closed form of the loop of `run` with `loop = false`, from any position. -/
theorem run_loop_noloop (af : AudioFile) (l r : Nat) (hL : af.num_samples < 4294967296)
    (n : Nat) :
    ∀ (nid : String) (f : Option AudioFile) (pl : Bool) (p : Nat) (buf : Fin 2 → BufferPtr)
      (q : List Message) (lo ro : List Float32),
      ProcessorSoundFile.run_loop af l r n ⟨⟨nid, f, false, pl, p, buf⟩, q, lo, ro⟩ =
        Except.ok
          ⟨⟨nid, f, false, pl && decide (n = 0 ∨ p + n ≤ af.num_samples),
              max p (min (p + n) af.num_samples), buf⟩,
            q ++ (if pl = true ∧ 0 < n ∧ af.num_samples < p + n then
                    [Message.SoundFileCompleteMessage nid] else []),
            lo ++ (List.range n).map (sample_or_zero af l p),
            ro ++ (List.range n).map (sample_or_zero af r p)⟩ := by
  induction n with
  | zero =>
    intro nid f pl p buf q lo ro
    simp [ProcessorSoundFile.run_loop]
  | succ n ih =>
    intro nid f pl p buf q lo ro
    rw [range_succ_map_shift (sample_or_zero af l p) (sample_or_zero af l (p + 1)) n
        (sample_or_zero_shift af l p),
      range_succ_map_shift (sample_or_zero af r p) (sample_or_zero af r (p + 1)) n
        (sample_or_zero_shift af r p)]
    by_cases hp : p < af.num_samples
    · have hmod : (p + 1) % 4294967296 = p + 1 := Nat.mod_eq_of_lt (by omega)
      have hb : ProcessorSoundFile.run_body af l r ⟨⟨nid, f, false, pl, p, buf⟩, q, lo, ro⟩ =
          Except.ok ⟨⟨nid, f, false, pl, p + 1, buf⟩, q, lo ++ [af.data l p],
            ro ++ [af.data r p]⟩ := by
        simp [ProcessorSoundFile.run_body, ProcessorSoundFile.run_copy, AudioFile.read, hp,
          Nat.not_le.mpr hp, hmod]
      simp only [ProcessorSoundFile.run_loop, hb, ih]
      have e1 : max (p + 1) (min (p + 1 + n) af.num_samples) =
          max p (min (p + (n + 1)) af.num_samples) := by omega
      have e2 : (pl && decide (n = 0 ∨ p + 1 + n ≤ af.num_samples)) =
          (pl && decide (n + 1 = 0 ∨ p + (n + 1) ≤ af.num_samples)) := by
        congr 1
        apply decide_eq_decide.mpr
        omega
      have e3 : (pl = true ∧ 0 < n ∧ af.num_samples < p + 1 + n) ↔
          (pl = true ∧ 0 < n + 1 ∧ af.num_samples < p + (n + 1)) := by
        constructor <;> rintro ⟨a, b, c⟩ <;> refine ⟨a, ?_, ?_⟩ <;> omega
      simp only [e1, e2, e3, sample_or_zero, Nat.add_zero, hp, if_true, List.append_assoc,
        List.singleton_append]
    · have hle : af.num_samples ≤ p := Nat.not_lt.mp hp
      have hb : ProcessorSoundFile.run_body af l r ⟨⟨nid, f, false, pl, p, buf⟩, q, lo, ro⟩ =
          Except.ok ⟨⟨nid, f, false, false, p, buf⟩,
            q ++ (if pl = true then [Message.SoundFileCompleteMessage nid] else []),
            lo ++ [Float32.zero], ro ++ [Float32.zero]⟩ := by
        cases pl <;> simp [ProcessorSoundFile.run_body, hle]
      simp only [ProcessorSoundFile.run_loop, hb, ih]
      have e1 : max p (min (p + n) af.num_samples) =
          max p (min (p + (n + 1)) af.num_samples) := by omega
      have e2 : (pl && decide (n + 1 = 0 ∨ p + (n + 1) ≤ af.num_samples)) = false := by
        have hn : ¬ (n + 1 = 0 ∨ p + (n + 1) ≤ af.num_samples) := by omega
        rw [decide_eq_false hn, Bool.and_false]
      have e3 : (pl = true ∧ 0 < n + 1 ∧ af.num_samples < p + (n + 1)) ↔ pl = true := by
        constructor
        · rintro ⟨a, _, _⟩
          exact a
        · intro a
          exact ⟨a, by omega, by omega⟩
      have e4 : ∀ ch, (List.range n).map (sample_or_zero af ch (p + 1)) =
          (List.range n).map (sample_or_zero af ch p) := by
        intro ch
        apply List.map_congr_left
        intro i _
        rw [sample_or_zero_of_le af ch (p + 1) i (by omega), sample_or_zero_of_le af ch p i hle]
      simp only [e1, e2, e3, e4, sample_or_zero, Nat.add_zero, hp, if_false, List.append_assoc,
        List.singleton_append, Bool.false_and, false_and, List.append_nil, Bool.false_eq_true]

/-- Closed form of the loop of `run` with `loop = true`, from a position `<= num_samples`. -/
theorem run_loop_looping (af : AudioFile) (l r : Nat) (hL : af.num_samples < 4294967296)
    (h1 : 1 ≤ af.num_samples) (n : Nat) :
    ∀ (nid : String) (f : Option AudioFile) (pl : Bool) (p : Nat) (buf : Fin 2 → BufferPtr)
      (q : List Message) (lo ro : List Float32), p ≤ af.num_samples →
      ProcessorSoundFile.run_loop af l r n ⟨⟨nid, f, true, pl, p, buf⟩, q, lo, ro⟩ =
        Except.ok
          ⟨⟨nid, f, true, pl, loop_pos af.num_samples p n, buf⟩, q,
            lo ++ (List.range n).map (sample_mod af l p),
            ro ++ (List.range n).map (sample_mod af r p)⟩ := by
  induction n with
  | zero =>
    intro nid f pl p buf q lo ro hp
    simp [ProcessorSoundFile.run_loop, loop_pos, hp]
  | succ n ih =>
    intro nid f pl p buf q lo ro hp
    by_cases hlt : p < af.num_samples
    · have hmod : (p + 1) % 4294967296 = p + 1 := Nat.mod_eq_of_lt (by omega)
      have hb : ProcessorSoundFile.run_body af l r ⟨⟨nid, f, true, pl, p, buf⟩, q, lo, ro⟩ =
          Except.ok ⟨⟨nid, f, true, pl, p + 1, buf⟩, q, lo ++ [af.data l p],
            ro ++ [af.data r p]⟩ := by
        simp [ProcessorSoundFile.run_body, ProcessorSoundFile.run_copy, AudioFile.read, hlt,
          Nat.not_le.mpr hlt, hmod]
      have hs : ∀ ch i, sample_mod af ch (p + 1) i = sample_mod af ch p (i + 1) := by
        intro ch i
        unfold sample_mod
        rw [show p + 1 + i = p + (i + 1) by omega]
      have h0 : ∀ ch, sample_mod af ch p 0 = af.data ch p := by
        intro ch
        unfold sample_mod
        rw [Nat.add_zero, Nat.mod_eq_of_lt hlt]
      have hpos : loop_pos af.num_samples (p + 1) n = loop_pos af.num_samples p (n + 1) := by
        unfold loop_pos
        rw [show p + 1 + n = p + (n + 1) by omega]
      rw [range_succ_map_shift (sample_mod af l p) (sample_mod af l (p + 1)) n (hs l),
        range_succ_map_shift (sample_mod af r p) (sample_mod af r (p + 1)) n (hs r)]
      simp only [ProcessorSoundFile.run_loop, hb, ih _ _ _ (p + 1) _ _ _ _ (by omega), hpos, h0,
        List.append_assoc, List.singleton_append]
    · have hpe : p = af.num_samples := by omega
      subst hpe
      have hmod : (0 + 1) % 4294967296 = 1 := by norm_num
      have hb : ProcessorSoundFile.run_body af l r
          ⟨⟨nid, f, true, pl, af.num_samples, buf⟩, q, lo, ro⟩ =
          Except.ok ⟨⟨nid, f, true, pl, 1, buf⟩, q, lo ++ [af.data l 0],
            ro ++ [af.data r 0]⟩ := by
        simp [ProcessorSoundFile.run_body, ProcessorSoundFile.run_copy, AudioFile.read,
          Nat.pos_of_ne_zero (by omega : af.num_samples ≠ 0)]
      have hs : ∀ ch i, sample_mod af ch 1 i = sample_mod af ch af.num_samples (i + 1) := by
        intro ch i
        unfold sample_mod
        rw [Nat.add_mod_left, Nat.add_comm 1 i]
      have h0 : ∀ ch, sample_mod af ch af.num_samples 0 = af.data ch 0 := by
        intro ch
        unfold sample_mod
        rw [Nat.add_zero, Nat.mod_self]
      have hpos : loop_pos af.num_samples 1 n =
          loop_pos af.num_samples af.num_samples (n + 1) := by
        unfold loop_pos
        rw [if_neg (by omega : ¬ af.num_samples + (n + 1) ≤ af.num_samples),
          show af.num_samples + (n + 1) - 1 = af.num_samples + n by omega, Nat.add_mod_left]
        by_cases hn : 1 + n ≤ af.num_samples
        · rw [if_pos hn, Nat.mod_eq_of_lt (by omega)]
          omega
        · rw [if_neg hn, show 1 + n - 1 = n by omega]
      rw [range_succ_map_shift (sample_mod af l af.num_samples) (sample_mod af l 1) n (hs l),
        range_succ_map_shift (sample_mod af r af.num_samples) (sample_mod af r 1) n (hs r)]
      simp only [ProcessorSoundFile.run_loop, hb, ih _ _ _ 1 _ _ _ _ h1, hpos, h0,
        List.append_assoc, List.singleton_append]

/-- With a source of at least one channel, `run` is its loop on channels `0` and
`1 % num_channels`. -/
theorem run_prologue (self : ProcessorSoundFile) (af : AudioFile) (ctxt : BlockContext)
    (haf : self._audio_file = some af) (hC : 1 ≤ af.num_channels) :
    self.run ctxt =
      match ProcessorSoundFile.run_loop af 0 (1 % af.num_channels) ctxt.block_size
          ⟨self, ctxt.out_messages, [], []⟩ with
      | Except.error e => Except.error e
      | Except.ok st =>
        Except.ok ⟨st.self, { ctxt with out_messages := st.out_messages }, st.l_out, st.r_out,
          Status.Ok⟩ := by
  have h0 : 0 < af.num_channels := hC
  have h1 : 1 % af.num_channels < af.num_channels := Nat.mod_lt _ h0
  have h2 : af.num_channels ≠ 0 := by omega
  simp only [ProcessorSoundFile.run, haf, AudioFile.channel_data, h0, h1, h2, if_true, if_false]

/-- Closed form of `run` with `loop = false`. -/
theorem run_noloop (self : ProcessorSoundFile) (af : AudioFile) (ctxt : BlockContext)
    (haf : self._audio_file = some af) (hloop : self._loop = false)
    (hC : 1 ≤ af.num_channels) (hL : af.num_samples < 4294967296) :
    self.run ctxt =
      Except.ok
        ⟨{ self with
            _playing := self._playing &&
              decide (ctxt.block_size = 0 ∨ self._pos + ctxt.block_size ≤ af.num_samples)
            _pos := max self._pos (min (self._pos + ctxt.block_size) af.num_samples) },
          { ctxt with
            out_messages := ctxt.out_messages ++
              (if self._playing = true ∧ 0 < ctxt.block_size ∧
                  af.num_samples < self._pos + ctxt.block_size then
                [Message.SoundFileCompleteMessage self.node_id] else []) },
          (List.range ctxt.block_size).map (sample_or_zero af 0 self._pos),
          (List.range ctxt.block_size).map (sample_or_zero af (1 % af.num_channels) self._pos),
          Status.Ok⟩ := by
  rw [run_prologue self af ctxt haf hC]
  obtain ⟨nid, f, lp, pl, p, buf⟩ := self
  simp only at haf hloop
  subst hloop
  simp only [run_loop_noloop af _ _ hL, List.nil_append]

/-- Closed form of `run` with `loop = true`. -/
theorem run_looping (self : ProcessorSoundFile) (af : AudioFile) (ctxt : BlockContext)
    (haf : self._audio_file = some af) (hloop : self._loop = true)
    (hC : 1 ≤ af.num_channels) (hL : af.num_samples < 4294967296)
    (h1 : 1 ≤ af.num_samples) (hp : self._pos ≤ af.num_samples) :
    self.run ctxt =
      Except.ok
        ⟨{ self with _pos := loop_pos af.num_samples self._pos ctxt.block_size },
          ctxt,
          (List.range ctxt.block_size).map (sample_mod af 0 self._pos),
          (List.range ctxt.block_size).map (sample_mod af (1 % af.num_channels) self._pos),
          Status.Ok⟩ := by
  rw [run_prologue self af ctxt haf hC]
  obtain ⟨nid, f, lp, pl, p, buf⟩ := self
  simp only at haf hloop hp
  subst hloop
  simp only [run_loop_looping af _ _ hL h1 _ _ _ _ _ _ _ _ _ hp, List.nil_append]

/-- In the stopped state the loop stores silence and changes nothing else. -/
theorem run_loop_stopped (af : AudioFile) (l r : Nat) (n : Nat) :
    ∀ (nid : String) (f : Option AudioFile) (p : Nat) (buf : Fin 2 → BufferPtr)
      (q : List Message) (lo ro : List Float32), af.num_samples ≤ p →
      ProcessorSoundFile.run_loop af l r n ⟨⟨nid, f, false, false, p, buf⟩, q, lo, ro⟩ =
        Except.ok
          ⟨⟨nid, f, false, false, p, buf⟩, q,
            lo ++ List.replicate n Float32.zero, ro ++ List.replicate n Float32.zero⟩ := by
  induction n with
  | zero =>
    intro nid f p buf q lo ro _
    simp [ProcessorSoundFile.run_loop]
  | succ n ih =>
    intro nid f p buf q lo ro hp
    have hb : ProcessorSoundFile.run_body af l r ⟨⟨nid, f, false, false, p, buf⟩, q, lo, ro⟩ =
        Except.ok ⟨⟨nid, f, false, false, p, buf⟩, q, lo ++ [Float32.zero],
          ro ++ [Float32.zero]⟩ := by
      simp [ProcessorSoundFile.run_body, hp]
    simp only [ProcessorSoundFile.run_loop, hb, ih _ _ _ _ _ _ _ hp, List.replicate_succ,
      List.append_assoc, List.singleton_append]

/-- One loop iteration from a position `<= num_samples` reads in range and keeps the
position `<= num_samples`. -/
theorem run_body_safe (af : AudioFile) (l r : Nat) (st : RunState)
    (hp : st.self._pos ≤ af.num_samples)
    (hl : st.self._loop = false ∨ 1 ≤ af.num_samples) :
    ∃ st1, ProcessorSoundFile.run_body af l r st = Except.ok st1 ∧
      st1.self._pos ≤ af.num_samples ∧ st1.self._loop = st.self._loop ∧
      st1.l_out.length = st.l_out.length + 1 ∧ st1.r_out.length = st.r_out.length + 1 := by
  obtain ⟨⟨nid, f, lp, pl, p, buf⟩, q, lo, ro⟩ := st
  simp only at hp hl
  by_cases hlt : p < af.num_samples
  · have hle : (p + 1) % 4294967296 ≤ af.num_samples :=
      Nat.le_trans (Nat.mod_le _ _) hlt
    simp [ProcessorSoundFile.run_body, ProcessorSoundFile.run_copy, AudioFile.read, hlt,
      Nat.not_le.mpr hlt, hle]
  · have hge : af.num_samples ≤ p := Nat.not_lt.mp hlt
    cases lp with
    | true =>
      have h1 : 0 < af.num_samples := by
        rcases hl with h | h
        · cases h
        · exact h
      simp [ProcessorSoundFile.run_body, ProcessorSoundFile.run_copy, AudioFile.read, hge, h1]
      exact h1
    | false =>
      cases pl <;> simp [ProcessorSoundFile.run_body, hge, hp]

/-- The loop from a position `<= num_samples` reads in range and stores one sample per
iteration on each port. -/
theorem run_loop_safe (af : AudioFile) (l r : Nat) (n : Nat) :
    ∀ st : RunState, st.self._pos ≤ af.num_samples →
      (st.self._loop = false ∨ 1 ≤ af.num_samples) →
      ∃ st1, ProcessorSoundFile.run_loop af l r n st = Except.ok st1 ∧
        st1.self._pos ≤ af.num_samples ∧ st1.self._loop = st.self._loop ∧
        st1.l_out.length = st.l_out.length + n ∧ st1.r_out.length = st.r_out.length + n := by
  induction n with
  | zero =>
    intro st hp _
    exact ⟨st, rfl, hp, rfl, rfl, rfl⟩
  | succ n ih =>
    intro st hp hl
    obtain ⟨st1, hb, hp1, hl1, hlo1, hro1⟩ := run_body_safe af l r st hp hl
    obtain ⟨st2, hr, hp2, hl2, hlo2, hro2⟩ := ih st1 hp1 (by rw [hl1]; exact hl)
    refine ⟨st2, ?_, hp2, by rw [hl2, hl1], by rw [hlo2, hlo1]; omega, by rw [hro2, hro1]; omega⟩
    simp only [ProcessorSoundFile.run_loop, hb, hr]

/-- Samples already stored on the ports do not influence a loop iteration. -/
theorem run_body_frame (af : AudioFile) (l r : Nat) (s : ProcessorSoundFile)
    (q : List Message) (lo0 ro0 lo ro : List Float32) :
    ProcessorSoundFile.run_body af l r ⟨s, q, lo0 ++ lo, ro0 ++ ro⟩ =
      match ProcessorSoundFile.run_body af l r ⟨s, q, lo, ro⟩ with
      | Except.error e => Except.error e
      | Except.ok st => Except.ok ⟨st.self, st.out_messages, lo0 ++ st.l_out, ro0 ++ st.r_out⟩ := by
  simp only [ProcessorSoundFile.run_body, ProcessorSoundFile.run_copy, AudioFile.read]
  split_ifs <;> simp

/-- Samples already stored on the ports do not influence the loop. -/
theorem run_loop_frame (af : AudioFile) (l r : Nat) (lo0 ro0 : List Float32) (n : Nat) :
    ∀ (s : ProcessorSoundFile) (q : List Message) (lo ro : List Float32),
      ProcessorSoundFile.run_loop af l r n ⟨s, q, lo0 ++ lo, ro0 ++ ro⟩ =
        match ProcessorSoundFile.run_loop af l r n ⟨s, q, lo, ro⟩ with
        | Except.error e => Except.error e
        | Except.ok st =>
          Except.ok ⟨st.self, st.out_messages, lo0 ++ st.l_out, ro0 ++ st.r_out⟩ := by
  induction n with
  | zero =>
    intro s q lo ro
    simp [ProcessorSoundFile.run_loop]
  | succ n ih =>
    intro s q lo ro
    simp only [ProcessorSoundFile.run_loop, run_body_frame af l r s q lo0 ro0 lo ro]
    cases hb : ProcessorSoundFile.run_body af l r ⟨s, q, lo, ro⟩ with
    | error e => rfl
    | ok st => exact ih st.self st.out_messages st.l_out st.r_out

/-- The loop over `n + m` samples is the loop over `n` followed by the loop over `m`. -/
theorem run_loop_add (af : AudioFile) (l r : Nat) (m : Nat) (n : Nat) :
    ∀ st : RunState,
      ProcessorSoundFile.run_loop af l r (n + m) st =
        match ProcessorSoundFile.run_loop af l r n st with
        | Except.error e => Except.error e
        | Except.ok st1 => ProcessorSoundFile.run_loop af l r m st1 := by
  induction n with
  | zero =>
    intro st
    simp [ProcessorSoundFile.run_loop]
  | succ n ih =>
    intro st
    rw [Nat.succ_add]
    simp only [ProcessorSoundFile.run_loop]
    cases hb : ProcessorSoundFile.run_body af l r st with
    | error e => rfl
    | ok st1 => exact ih st1

/-- A loop iteration keeps the audio file. -/
theorem run_body_audio_file (af : AudioFile) (l r : Nat) (st st1 : RunState)
    (h : ProcessorSoundFile.run_body af l r st = Except.ok st1) :
    st1.self._audio_file = st.self._audio_file := by
  simp only [ProcessorSoundFile.run_body, ProcessorSoundFile.run_copy, AudioFile.read] at h
  split_ifs at h <;> simp at h <;> rw [← h]

/-- The loop keeps the audio file. -/
theorem run_loop_audio_file (af : AudioFile) (l r : Nat) (n : Nat) :
    ∀ st st1 : RunState, ProcessorSoundFile.run_loop af l r n st = Except.ok st1 →
      st1.self._audio_file = st.self._audio_file := by
  induction n with
  | zero =>
    intro st st1 h
    simp only [ProcessorSoundFile.run_loop, Except.ok.injEq] at h
    rw [h]
  | succ n ih =>
    intro st st1 h
    simp only [ProcessorSoundFile.run_loop] at h
    cases hb : ProcessorSoundFile.run_body af l r st with
    | error e =>
      rw [hb] at h
      cases h
    | ok st2 =>
      rw [hb] at h
      rw [ih st2 st1 h, run_body_audio_file af l r st st2 hb]

/-! ## Sequences of blocks -/

/-- A looping run ends at a position `<= L`. -/
theorem loop_pos_le (L p n : Nat) (h1 : 1 ≤ L) : loop_pos L p n ≤ L := by
  unfold loop_pos
  split_ifs with h
  · omega
  · have := Nat.mod_lt (p + n - 1) h1
    omega

/-- A looping run of `n` samples advances the position by `n` modulo `L`. -/
theorem loop_pos_mod (L p n : Nat) : loop_pos L p n % L = (p + n) % L := by
  unfold loop_pos
  split_ifs with h
  · rfl
  · have e : p + n = (p + n - 1) + 1 := by omega
    conv_rhs => rw [e]
    rw [Nat.add_mod ((p + n - 1) % L) 1 L, Nat.mod_mod, ← Nat.add_mod]

/-- The block after a looping run of `n` samples continues at offset `n`. -/
theorem sample_mod_loop_pos (af : AudioFile) (ch p n i : Nat) :
    sample_mod af ch (loop_pos af.num_samples p n) i = sample_mod af ch p (n + i) := by
  unfold sample_mod
  rw [Nat.add_mod, loop_pos_mod, ← Nat.add_mod, Nat.add_assoc]

/-- Looping playback over any sequence of blocks, from a position `<= num_samples`. -/
theorem run_blocks_looping (af : AudioFile) (hC : 1 ≤ af.num_channels)
    (hL : af.num_samples < 4294967296) (h1 : 1 ≤ af.num_samples) (Bs : List Nat) :
    ∀ self : ProcessorSoundFile, self._audio_file = some af → self._loop = true →
      self._pos ≤ af.num_samples →
      ∃ s1 outs, self.run_blocks Bs = Except.ok (s1, outs) ∧
        (outs.map BlockOut.l_out).flatten = (List.range Bs.sum).map (sample_mod af 0 self._pos) ∧
        (outs.map BlockOut.r_out).flatten =
          (List.range Bs.sum).map (sample_mod af (1 % af.num_channels) self._pos) ∧
        (∀ o ∈ outs, o.messages = []) ∧ outs.map (fun o => o.l_out.length) = Bs := by
  induction Bs with
  | nil =>
    intro self _ _ _
    exact ⟨self, [], rfl, rfl, rfl, by simp, rfl⟩
  | cons B Bs ih =>
    intro self haf hloop hp
    have hrun := run_looping self af ⟨B, []⟩ haf hloop hC hL h1 hp
    obtain ⟨s1, outs, hrest, hl, hr, hm, hlen⟩ :=
      ih { self with _pos := loop_pos af.num_samples self._pos B } haf hloop
        (loop_pos_le _ _ _ h1)
    refine ⟨s1, ⟨(List.range B).map (sample_mod af 0 self._pos),
        (List.range B).map (sample_mod af (1 % af.num_channels) self._pos), []⟩ :: outs,
      ?_, ?_, ?_, ?_, ?_⟩
    · simp only [ProcessorSoundFile.run_blocks, hrun, hrest]
    · simp only [List.map_cons, List.flatten_cons, hl, List.sum_cons, List.range_add, List.map_append,
        List.map_map]
      congr 1
      apply List.map_congr_left
      intro i _
      exact sample_mod_loop_pos af 0 self._pos B i
    · simp only [List.map_cons, List.flatten_cons, hr, List.sum_cons, List.range_add, List.map_append,
        List.map_map]
      congr 1
      apply List.map_congr_left
      intro i _
      exact sample_mod_loop_pos af _ self._pos B i
    · intro o ho
      rcases List.mem_cons.mp ho with h | h
      · rw [h]
      · exact hm o h
    · simp [hlen]

/-- Non-looping playback over any sequence of blocks: the final position, and at most
one message if the processor was playing and none otherwise. -/
theorem run_blocks_noloop (af : AudioFile) (hC : 1 ≤ af.num_channels)
    (hL : af.num_samples < 4294967296) (Bs : List Nat) :
    ∀ self : ProcessorSoundFile, self._audio_file = some af → self._loop = false →
      ∃ s1 outs, self.run_blocks Bs = Except.ok (s1, outs) ∧
        s1._pos = max self._pos (min (self._pos + Bs.sum) af.num_samples) ∧
        (outs.map BlockOut.messages).flatten.length ≤ (if self._playing = true then 1 else 0) ∧
        outs.length = Bs.length := by
  induction Bs with
  | nil =>
    intro self _ _
    refine ⟨self, [], rfl, ?_, by simp, rfl⟩
    simp
  | cons B Bs ih =>
    intro self haf hloop
    have hrun := run_noloop self af ⟨B, []⟩ haf hloop hC hL
    obtain ⟨s1, outs, hrest, hpos, hmsg, hlen⟩ :=
      ih { self with
            _playing := self._playing && decide (B = 0 ∨ self._pos + B ≤ af.num_samples)
            _pos := max self._pos (min (self._pos + B) af.num_samples) } haf hloop
    refine ⟨s1, ⟨(List.range B).map (sample_or_zero af 0 self._pos),
        (List.range B).map (sample_or_zero af (1 % af.num_channels) self._pos),
        if self._playing = true ∧ 0 < B ∧ af.num_samples < self._pos + B then
          [Message.SoundFileCompleteMessage self.node_id] else []⟩ :: outs, ?_, ?_, ?_, ?_⟩
    · simp only [ProcessorSoundFile.run_blocks, hrun, hrest, List.nil_append]
    · rw [hpos]
      simp only [List.sum_cons]
      omega
    · simp only [List.map_cons, List.flatten_cons, List.length_append]
      simp only at hmsg
      by_cases hpl : self._playing = true
      · by_cases hend : 0 < B ∧ af.num_samples < self._pos + B
        · have hd : decide (B = 0 ∨ self._pos + B ≤ af.num_samples) = false :=
            decide_eq_false (by omega)
          rw [hd, Bool.and_false] at hmsg
          simp only [Bool.false_eq_true, if_false] at hmsg
          simp only [hpl, hend, and_self, if_true, List.length_singleton]
          omega
        · have hc : ¬ (self._playing = true ∧ 0 < B ∧ af.num_samples < self._pos + B) :=
            fun h => hend h.2
          rw [if_neg hc, if_pos hpl]
          have : (if (self._playing && decide (B = 0 ∨ self._pos + B ≤ af.num_samples)) = true
              then 1 else 0) ≤ 1 := by split_ifs <;> omega
          simp only [List.length_nil]
          omega
      · have hc : ¬ (self._playing = true ∧ 0 < B ∧ af.num_samples < self._pos + B) :=
          fun h => hpl h.1
        have hf : self._playing = false := by simpa using hpl
        rw [hf, Bool.false_and] at hmsg
        simp only [Bool.false_eq_true, if_false] at hmsg
        rw [if_neg hc, if_neg hpl]
        simp only [List.length_nil]
        omega
    · simp [hlen]

/-- Block `k` is the one that contains index `L`. -/
theorem div_eq_iff_block (L B k : Nat) (hB : 1 ≤ B) :
    k = L / B ↔ k * B ≤ L ∧ L < k * B + B := by
  have h1 : k ≤ L / B ↔ k * B ≤ L := Nat.le_div_iff_mul_le hB
  have h2 : L / B < k + 1 ↔ L < (k + 1) * B := Nat.div_lt_iff_lt_mul hB
  rw [Nat.succ_mul] at h2
  constructor
  · intro h
    exact ⟨h1.mp (by omega), h2.mp (by omega)⟩
  · rintro ⟨a, b⟩
    have := h1.mpr a
    have := h2.mpr b
    omega

/-- Clamping the start position to the length of the source changes no sample. -/
theorem sample_or_zero_min (af : AudioFile) (ch p : Nat) :
    sample_or_zero af ch (min p af.num_samples) = sample_or_zero af ch p := by
  funext i
  unfold sample_or_zero
  by_cases h : p ≤ af.num_samples
  · rw [Nat.min_eq_left h]
  · rw [Nat.min_eq_right (by omega), if_neg (by omega), if_neg (by omega)]

/-- Non-looping playback in blocks of constant size `B`, from block number `k`. -/
theorem run_blocks_const (af : AudioFile) (hC : 1 ≤ af.num_channels)
    (hL : af.num_samples < 4294967296) (B : Nat) (hB : 1 ≤ B) (nid : String)
    (buf : Fin 2 → BufferPtr) (N : Nat) :
    ∀ k : Nat,
      ProcessorSoundFile.run_blocks
          ⟨nid, some af, false, decide (k * B ≤ af.num_samples), min (k * B) af.num_samples, buf⟩
          (List.replicate N B) =
        Except.ok
          (⟨nid, some af, false, decide ((k + N) * B ≤ af.num_samples),
              min ((k + N) * B) af.num_samples, buf⟩,
            (List.range N).map (fun j => const_block af nid B (k + j))) := by
  induction N with
  | zero =>
    intro k
    simp [ProcessorSoundFile.run_blocks]
  | succ N ih =>
    intro k
    have hrun := run_noloop
      ⟨nid, some af, false, decide (k * B ≤ af.num_samples), min (k * B) af.num_samples, buf⟩
      af ⟨B, []⟩ rfl rfl hC hL
    simp only [List.nil_append] at hrun
    have hk : (k + 1) * B = k * B + B := Nat.succ_mul k B
    have e1 : max (min (k * B) af.num_samples) (min (min (k * B) af.num_samples + B) af.num_samples) =
        min ((k + 1) * B) af.num_samples := by omega
    have e2 : (decide (k * B ≤ af.num_samples) &&
        decide (B = 0 ∨ min (k * B) af.num_samples + B ≤ af.num_samples)) =
        decide ((k + 1) * B ≤ af.num_samples) := by
      rw [← Bool.decide_and]
      apply decide_eq_decide.mpr
      omega
    have e3 : (decide (k * B ≤ af.num_samples) = true ∧ 0 < B ∧
        af.num_samples < min (k * B) af.num_samples + B) ↔ k = af.num_samples / B := by
      rw [div_eq_iff_block _ _ _ hB, decide_eq_true_iff]
      omega
    rw [e1, e2] at hrun
    simp only [e3, sample_or_zero_min] at hrun
    have hidx : ∀ j, const_block af nid B (k + 1 + j) = const_block af nid B (k + (j + 1)) := by
      intro j
      rw [show k + 1 + j = k + (j + 1) by omega]
    rw [List.replicate_succ,
      range_succ_map_shift (fun j => const_block af nid B (k + j))
        (fun j => const_block af nid B (k + 1 + j)) N hidx]
    simp only [ProcessorSoundFile.run_blocks, hrun, ih (k + 1)]
    rw [show k + 1 + N = k + (N + 1) by omega]
    rfl

/-- The state a successful `setup` leaves. -/
theorem setup_ok_state (self0 : ProcessorSoundFile) (path : String)
    (load : String → StatusOr AudioFile) (af : AudioFile) (hload : load path = Except.ok af) :
    self0.setup Status.Ok (Except.ok path) load =
      (Status.Ok, ⟨self0.node_id, some af, false, true, 0, self0._buf⟩) := by
  simp [ProcessorSoundFile.setup, hload]

/-- Non-looping playback in blocks of constant size `B`, from the state left by `setup`. -/
theorem run_blocks_setup (af : AudioFile) (hC : 1 ≤ af.num_channels)
    (hL : af.num_samples < 4294967296) (B : Nat) (hB : 1 ≤ B) (nid : String)
    (buf : Fin 2 → BufferPtr) (N : Nat) :
    ProcessorSoundFile.run_blocks ⟨nid, some af, false, true, 0, buf⟩ (List.replicate N B) =
      Except.ok
        (⟨nid, some af, false, decide (N * B ≤ af.num_samples), min (N * B) af.num_samples, buf⟩,
          (List.range N).map (const_block af nid B)) := by
  have h := run_blocks_const af hC hL B hB nid buf N 0
  simp only [Nat.zero_mul, Nat.zero_le, decide_True, Nat.zero_min, Nat.zero_add] at h
  exact h

/-- A list of `N` slots of which only slot `m` holds an element. -/
theorem flatten_indicator {α : Type} (x : α) (m N : Nat) :
    ((List.range N).map (fun k => if k = m then [x] else [])).flatten =
      if m < N then [x] else [] := by
  induction N with
  | zero => simp
  | succ N ih =>
    rw [List.range_succ, List.map_append, List.flatten_append, ih]
    by_cases h1 : m < N
    · have h2 : N ≠ m := by omega
      simp [h1, h2, Nat.lt_succ_of_lt h1]
    · by_cases h2 : N = m
      · subst h2
        simp
      · have h3 : ¬ m < N + 1 := by omega
        simp [h1, h2, h3]

/-- The quotient `L / B` is below `ceil(L/B)` exactly when `B` does not divide `L`. -/
theorem div_lt_ceil_iff (L B : Nat) (hB : 1 ≤ B) :
    L / B < (L + B - 1) / B ↔ ¬ B ∣ L := by
  have hdm := Nat.div_add_mod L B
  have hmod := Nat.mod_lt L hB
  rw [Nat.dvd_iff_mod_eq_zero, Nat.lt_iff_add_one_le, Nat.le_div_iff_mul_le hB, Nat.succ_mul,
    Nat.mul_comm]
  omega

/-- Blocks from number `ceil(L/B)` on start at or past the end of the source. -/
theorem le_mul_of_ceil_le (L B k : Nat) (hB : 1 ≤ B) (hk : (L + B - 1) / B ≤ k) :
    L ≤ k * B := by
  have h : (L + B - 1) / B < k + 1 := by omega
  rw [Nat.div_lt_iff_lt_mul hB, Nat.succ_mul] at h
  omega

/-- A block that starts at or past the end of the source is silent. -/
theorem const_block_silent (af : AudioFile) (nid : String) (B k : Nat)
    (h : af.num_samples ≤ k * B) :
    (const_block af nid B k).l_out = List.replicate B Float32.zero ∧
    (const_block af nid B k).r_out = List.replicate B Float32.zero := by
  have hz : ∀ ch, (List.range B).map (sample_or_zero af ch (k * B)) =
      List.replicate B Float32.zero := by
    intro ch
    rw [List.eq_replicate_iff]
    refine ⟨by simp, ?_⟩
    intro b hb
    obtain ⟨i, _, hi⟩ := List.mem_map.mp hb
    rw [← hi, sample_or_zero_of_le af ch (k * B) i h]
  exact ⟨hz 0, hz _⟩

/-! ## The hot-swap invariant -/

/-- The initial state satisfies the invariant. -/
theorem swap_inv_init : SwapInv SwapState.init := by
  constructor <;> simp [SwapState.init]

/-- Publishing keeps the invariant. -/
theorem swap_inv_publish (s : SwapState) (h : SwapInv s) : SwapInv s.publish := by
  obtain ⟨nx, cu, ol, pub, fr, ib, hd, ob, ep, se⟩ := s
  obtain ⟨h1, h2, h3, h4, h5, h6, h7, h8, h11, h9, h10⟩ := h
  simp only at h1 h2 h3 h4 h5 h6 h7 h8 h9 h10 h11
  have hfr : ∀ g ∈ (match nx with | some g => g :: fr | none => fr), g ≤ pub ∧ cu ≠ some g := by
    intro g hg
    cases nx with
    | none => exact ⟨h1 g hg, fun hc => h6 g hc hg⟩
    | some n =>
      rcases List.mem_cons.mp hg with hgn | hgf
      · subst hgn
        refine ⟨h2 g rfl, fun hc => ?_⟩
        have := h4 g g hc rfl
        omega
      · exact ⟨h1 g hgf, fun hc => h6 g hc hgf⟩
  constructor <;> simp only [SwapState.publish]
  · intro g hg
    have := (hfr g hg).1
    omega
  · intro n hn
    cases hn
    omega
  · intro n hn hmem
    cases hn
    have := (hfr _ hmem).1
    omega
  · intro c n hc hn
    cases hn
    have := h5 c hc
    omega
  · intro c hc
    have := h5 c hc
    omega
  · intro c hc hmem
    exact (hfr c hmem).2 hc
  · exact h7
  · exact h8
  · exact h11
  · exact h9
  · exact h10

/-- Reclaiming keeps the invariant. -/
theorem swap_inv_reclaim (s : SwapState) (h : SwapInv s) : SwapInv s.reclaim := by
  obtain ⟨nx, cu, ol, pub, fr, ib, hd, ob, ep, se⟩ := s
  cases ol with
  | none => exact h
  | some o =>
    by_cases hg : se < ep
    · obtain ⟨h1, h2, h3, h4, h5, h6, h7, h8, h11, h9, h10⟩ := h
      simp only at h1 h2 h3 h4 h5 h6 h7 h8 h9 h10 h11
      obtain ⟨c, hc, hoc⟩ := h7 o rfl
      have hcp := h5 c hc
      constructor <;> simp only [SwapState.reclaim, hg, if_true]
      · intro g hgm
        rcases List.mem_cons.mp hgm with hgo | hgf
        · omega
        · exact h1 g hgf
      · exact h2
      · intro n hn hmem
        rcases List.mem_cons.mp hmem with hno | hnf
        · have := h4 c n hc hn
          omega
        · exact h3 n hn hnf
      · exact h4
      · exact h5
      · intro c1 hc1 hmem
        rcases List.mem_cons.mp hmem with hco | hcf
        · rw [hc] at hc1
          cases hc1
          omega
        · exact h6 c1 hc1 hcf
      · intro o1 ho1
        cases ho1
      · exact h8
      · exact h11
      · exact h9
      · exact h10
    · simp only [SwapState.reclaim, hg, if_false]
      exact h

/-- Adopting keeps the invariant when the real-time thread holds nothing. -/
theorem swap_inv_adopt (s : SwapState) (h : SwapInv s) (hh : s.held = none) :
    SwapInv s.adopt := by
  obtain ⟨nx, cu, ol, pub, fr, ib, hd, ob, ep, se⟩ := s
  cases nx with
  | none => exact h
  | some n =>
    obtain ⟨h1, h2, h3, h4, h5, h6, h7, h8, h11, h9, h10⟩ := h
    simp only at h1 h2 h3 h4 h5 h6 h7 h8 h9 h10 h11 hh
    constructor <;> simp only [SwapState.adopt]
    · exact h1
    · intro m hm
      cases hm
    · intro m hm
      cases hm
    · intro c m _ hm
      cases hm
    · intro c hc
      have hcn := Option.some.inj hc
      subst hcn
      exact h2 _ rfl
    · intro c hc
      have hcn := Option.some.inj hc
      subst hcn
      exact h3 _ rfl
    · intro o ho
      exact ⟨n, rfl, h4 o n ho rfl⟩
    · intro x hx
      rw [hh] at hx
      cases hx
    · intro _
      exact hh
    · intro g hg
      obtain ⟨c, hc, hgc⟩ := h9 g hg
      have := h4 c n hc rfl
      exact ⟨n, rfl, by omega⟩
    · exact h10

/-- Starting a block keeps the invariant. -/
theorem swap_inv_block_begin (s : SwapState) (h : SwapInv s) : SwapInv s.block_begin := by
  by_cases hib : s.in_block = true
  · simp only [SwapState.block_begin, hib, if_true]
    exact h
  · have hf : s.in_block = false := by simpa using hib
    have hh : s.held = none := h.held_none hf
    obtain ⟨h1, h2, h3, h4, h5, h6, h7, h8, h11, h9, h10⟩ := swap_inv_adopt s h hh
    constructor <;> simp only [SwapState.block_begin, hf, Bool.false_eq_true, if_false]
    · exact h1
    · exact h2
    · exact h3
    · exact h4
    · exact h5
    · exact h6
    · exact h7
    · intro x hx
      exact hx
    · intro hx
      cases hx
    · intro g hg
      cases hc : s.adopt._current_spec with
      | none =>
        rw [hc] at hg
        obtain ⟨c, hc1, _⟩ := h9 g hg
        rw [hc] at hc1
        cases hc1
      | some c =>
        rw [hc] at hg
        rcases List.mem_append.mp hg with hg1 | hg1
        · obtain ⟨c1, hc1, hle⟩ := h9 g hg1
          rw [hc] at hc1
          cases hc1
          exact ⟨c, rfl, hle⟩
        · rw [List.mem_singleton] at hg1
          exact ⟨c, rfl, by omega⟩
    · cases hc : s.adopt._current_spec with
      | none => exact h10
      | some c =>
        simp only
        rw [List.pairwise_append]
        refine ⟨h10, List.pairwise_singleton _ _, ?_⟩
        intro a ha b hb1
        rw [List.mem_singleton] at hb1
        obtain ⟨c1, hc1, hle⟩ := h9 a ha
        rw [hc] at hc1
        cases hc1
        omega

/-- Ending a block keeps the invariant. -/
theorem swap_inv_block_end (s : SwapState) (h : SwapInv s) : SwapInv s.block_end := by
  by_cases hib : s.in_block = true
  · obtain ⟨h1, h2, h3, h4, h5, h6, h7, h8, h11, h9, h10⟩ := h
    constructor <;> simp only [SwapState.block_end, hib, if_true]
    · exact h1
    · exact h2
    · exact h3
    · exact h4
    · exact h5
    · exact h6
    · exact h7
    · intro x hx
      cases hx
    · intro _
      trivial
    · exact h9
    · exact h10
  · simp only [SwapState.block_end, hib, if_false]
    exact h

/-- Every step keeps the invariant. -/
theorem swap_inv_step (s : SwapState) (e : Event) (h : SwapInv s) : SwapInv (s.step e) := by
  cases e
  · exact swap_inv_publish s h
  · exact swap_inv_reclaim s h
  · exact swap_inv_block_begin s h
  · exact swap_inv_block_end s h

/-- Every interleaving keeps the invariant. -/
theorem swap_inv_foldl (sched : List Event) :
    ∀ s : SwapState, SwapInv s → SwapInv (sched.foldl SwapState.step s) := by
  induction sched with
  | nil =>
    intro s h
    exact h
  | cons e rest ih =>
    intro s h
    exact ih (s.step e) (swap_inv_step s e h)

/-- The number of specs published is the number of publish events. -/
theorem published_foldl (sched : List Event) :
    ∀ s : SwapState,
      (sched.foldl SwapState.step s).published = s.published + sched.count Event.publish := by
  induction sched with
  | nil =>
    intro s
    simp
  | cons e rest ih =>
    intro s
    rw [List.foldl_cons, ih]
    cases e
    · simp [SwapState.step, SwapState.publish]
      omega
    · have : s.reclaim.published = s.published := by
        unfold SwapState.reclaim
        split
        · split <;> rfl
        · rfl
      simp [SwapState.step, this]
    · have : s.block_begin.published = s.published := by
        unfold SwapState.block_begin SwapState.adopt
        split
        · rfl
        · split <;> rfl
      simp [SwapState.step, this]
    · have : s.block_end.published = s.published := by
        unfold SwapState.block_end
        split <;> rfl
      simp [SwapState.step, this]

/-- Once generation `N` is pending or current and nothing more is published, every
generation the real-time thread reads is `N`, and `N` stays pending or current. -/
theorem final_foldl (N : Nat) (post : List Event) (hpost : ∀ e ∈ post, e ≠ Event.publish) :
    ∀ s : SwapState,
      (s._next_spec = some N ∨ (s._next_spec = none ∧ s._current_spec = some N)) →
      ((post.foldl SwapState.step s)._next_spec = some N ∨
        ((post.foldl SwapState.step s)._next_spec = none ∧
          (post.foldl SwapState.step s)._current_spec = some N)) ∧
      ∃ k, (post.foldl SwapState.step s).observed = s.observed ++ List.replicate k N := by
  induction post with
  | nil =>
    intro s hs
    exact ⟨hs, 0, by simp⟩
  | cons e rest ih =>
    intro s hs
    have hrest : ∀ e1 ∈ rest, e1 ≠ Event.publish := fun e1 he1 =>
      hpost e1 (List.mem_cons_of_mem _ he1)
    have he : e ≠ Event.publish := hpost e (List.mem_cons_self _ _)
    have hstep : (((s.step e)._next_spec = some N ∨
        ((s.step e)._next_spec = none ∧ (s.step e)._current_spec = some N))) ∧
        ((s.step e).observed = s.observed ∨ (s.step e).observed = s.observed ++ [N]) := by
      obtain ⟨nx, cu, ol, pub, fr, ib, hd, ob, ep, se⟩ := s
      simp only at hs
      cases e with
      | publish => exact absurd rfl he
      | reclaim =>
        cases ol with
        | none => exact ⟨hs, Or.inl rfl⟩
        | some o =>
          by_cases hg : se < ep
          · simp only [SwapState.step, SwapState.reclaim, hg, if_true]
            exact ⟨hs, Or.inl trivial⟩
          · simp only [SwapState.step, SwapState.reclaim, hg, if_false]
            exact ⟨hs, Or.inl trivial⟩
      | block_begin =>
        cases ib with
        | true => exact ⟨hs, Or.inl rfl⟩
        | false =>
          rcases hs with hs | ⟨hs1, hs2⟩
          · subst hs
            simp [SwapState.step, SwapState.block_begin, SwapState.adopt]
          · subst hs1 hs2
            simp [SwapState.step, SwapState.block_begin, SwapState.adopt]
      | block_end =>
        cases ib with
        | true => exact ⟨hs, Or.inl rfl⟩
        | false => exact ⟨hs, Or.inl rfl⟩
    obtain ⟨hfin, k, hk⟩ := ih hrest (s.step e) hstep.1
    refine ⟨hfin, ?_⟩
    rcases hstep.2 with ho | ho
    · exact ⟨k, by rw [List.foldl_cons, hk, ho]⟩
    · refine ⟨k + 1, ?_⟩
      rw [List.foldl_cons, hk, ho, List.append_assoc, List.replicate_succ]
      rfl

/-! # Properties of the processors -/

/-! ## Completion after `ceil(L/B)` blocks -/

/-- C1 fails as stated: for the mono source of `L = 4` samples and block size `B = 2`
(`1 <= B < L`), after `ceil(L/B) = 2` blocks from `setup` the position is at the
end of the file but no completion message has been pushed yet. -/
theorem completion_after_ceil_blocks_refuted :
    mono4.num_channels = 1 ∧ 1 ≤ 2 ∧ 2 < mono4.num_samples ∧
    (mono4.num_samples + 2 - 1) / 2 = 2 ∧
    ∃ s1 outs,
      (fresh.setup Status.Ok (Except.ok "a.wav") (load_one mono4)).2.run_blocks
          (List.replicate ((mono4.num_samples + 2 - 1) / 2) 2) = Except.ok (s1, outs) ∧
      (outs.map BlockOut.messages).flatten = [] ∧
      (outs.map BlockOut.messages).flatten.length ≠ 1 ∧
      s1._pos = mono4.num_samples ∧ s1._playing = true := by
  refine ⟨rfl, by decide, by decide, rfl, _, _, rfl, rfl, by decide, rfl, rfl⟩

/-- C1, amended: for every mono source of length `L` (a `uint32` value) and every
block size `B` with `1 <= B < L`, from the state left by a successful `setup`
(position 0, playing, `loop = false`): after exactly `ceil(L/B)` blocks of size `B`
exactly one completion message has been pushed if `B` does not divide `L`, and none
if `B` divides `L`; after `ceil(L/B) + 1` blocks exactly one has been pushed; and
every block run after the first `ceil(L/B)` has all-zero output on both ports. -/
theorem completion_after_ceil_blocks (self0 : ProcessorSoundFile) (path : String)
    (load : String → StatusOr AudioFile) (af : AudioFile) (hload : load path = Except.ok af)
    (hmono : af.num_channels = 1) (hL : af.num_samples < 4294967296) (B : Nat)
    (hB1 : 1 ≤ B) (hB2 : B < af.num_samples) :
    (∃ s1 outs,
      (self0.setup Status.Ok (Except.ok path) load).2.run_blocks
          (List.replicate ((af.num_samples + B - 1) / B) B) = Except.ok (s1, outs) ∧
      (outs.map BlockOut.messages).flatten =
        if B ∣ af.num_samples then [] else [Message.SoundFileCompleteMessage self0.node_id]) ∧
    (∃ s1 outs,
      (self0.setup Status.Ok (Except.ok path) load).2.run_blocks
          (List.replicate ((af.num_samples + B - 1) / B + 1) B) = Except.ok (s1, outs) ∧
      (outs.map BlockOut.messages).flatten =
        [Message.SoundFileCompleteMessage self0.node_id]) ∧
    (∀ M : Nat, ∃ s1 outs,
      (self0.setup Status.Ok (Except.ok path) load).2.run_blocks
          (List.replicate ((af.num_samples + B - 1) / B + M) B) = Except.ok (s1, outs) ∧
      outs.length = (af.num_samples + B - 1) / B + M ∧
      ∀ (k : Nat) (o : BlockOut), (af.num_samples + B - 1) / B ≤ k → outs[k]? = some o →
        o.l_out = List.replicate B Float32.zero ∧ o.r_out = List.replicate B Float32.zero) := by
  have hC : 1 ≤ af.num_channels := by omega
  have hmsgs : ∀ N, ((List.range N).map (const_block af self0.node_id B)).map BlockOut.messages =
      (List.range N).map (fun k => if k = af.num_samples / B then
        [Message.SoundFileCompleteMessage self0.node_id] else []) := by
    intro N
    rw [List.map_map]
    apply List.map_congr_left
    intro k _
    simp [const_block]
  rw [setup_ok_state self0 path load af hload]
  refine ⟨?_, ?_, ?_⟩
  · refine ⟨_, _, run_blocks_setup af hC hL B hB1 self0.node_id self0._buf _, ?_⟩
    rw [hmsgs, flatten_indicator]
    by_cases hd : B ∣ af.num_samples
    · rw [if_neg (fun h => (div_lt_ceil_iff _ _ hB1).mp h hd), if_pos hd]
    · rw [if_pos ((div_lt_ceil_iff _ _ hB1).mpr hd), if_neg hd]
  · refine ⟨_, _, run_blocks_setup af hC hL B hB1 self0.node_id self0._buf _, ?_⟩
    rw [hmsgs, flatten_indicator, if_pos]
    have h1 : af.num_samples / B ≤ (af.num_samples + B - 1) / B :=
      Nat.div_le_div_right (by omega)
    omega
  · intro M
    refine ⟨_, _, run_blocks_setup af hC hL B hB1 self0.node_id self0._buf _, by simp, ?_⟩
    intro k o hk ho
    rw [List.getElem?_map] at ho
    cases hr : (List.range ((af.num_samples + B - 1) / B + M))[k]? with
    | none =>
      rw [hr] at ho
      cases ho
    | some j =>
      rw [hr] at ho
      have hj : j = k := by
        by_cases hlt : k < (af.num_samples + B - 1) / B + M
        · rw [List.getElem?_range hlt] at hr
          cases hr
          rfl
        · rw [List.getElem?_eq_none (by simp; omega)] at hr
          cases hr
      subst hj
      simp only [Option.map_some', Option.some.injEq] at ho
      rw [← ho]
      exact const_block_silent af self0.node_id B j (le_mul_of_ceil_le _ _ _ hB1 hk)

/-- An instance of `completion_after_ceil_blocks`: the mono source of 4 samples in blocks
of 3 has pushed its completion message after `ceil(4/3) = 2` blocks. -/
theorem completion_after_ceil_blocks_witness :
    ∃ s1 outs,
      (fresh.setup Status.Ok (Except.ok "a.wav") (load_one mono4)).2.run_blocks
          (List.replicate ((mono4.num_samples + 3 - 1) / 3) 3) = Except.ok (s1, outs) ∧
      (outs.map BlockOut.messages).flatten = [Message.SoundFileCompleteMessage "node"] := by
  obtain ⟨⟨s1, outs, hrun, hm⟩, _⟩ :=
    completion_after_ceil_blocks fresh "a.wav" (load_one mono4) mono4 rfl rfl (by decide) 3
      (by decide) (by decide)
  exact ⟨s1, outs, hrun, by rw [hm]; decide⟩

/-! ## Looping playback -/

/-- C2: looping playback.  For every source of length `L >= 1` (a `uint32` value,
with at least one channel), from position 0 with the loop flag set, and for every
sequence of block sizes: every block runs without fault and has its block size in
samples, the sample written to the left port at global sample index `i` (counted
across all blocks) is channel 0 of the source at index `i mod L`, the sample written
to the right port is channel `1 mod num_channels` at index `i mod L`, and no block
pushes a message. -/
theorem looping_playback (self : ProcessorSoundFile) (af : AudioFile)
    (haf : self._audio_file = some af) (hloop : self._loop = true)
    (hC : 1 ≤ af.num_channels) (hL : af.num_samples < 4294967296)
    (h1 : 1 ≤ af.num_samples) (hp0 : self._pos = 0) (Bs : List Nat) :
    ∃ s1 outs, self.run_blocks Bs = Except.ok (s1, outs) ∧
      outs.map (fun o => o.l_out.length) = Bs ∧
      (outs.map BlockOut.l_out).flatten =
        (List.range Bs.sum).map (fun i => af.data 0 (i % af.num_samples)) ∧
      (outs.map BlockOut.r_out).flatten =
        (List.range Bs.sum).map (fun i => af.data (1 % af.num_channels) (i % af.num_samples)) ∧
      (∀ o ∈ outs, o.messages = []) := by
  obtain ⟨s1, outs, hrun, hl, hr, hm, hlen⟩ :=
    run_blocks_looping af hC hL h1 Bs self haf hloop (by omega)
  refine ⟨s1, outs, hrun, hlen, ?_, ?_, hm⟩
  · rw [hl, hp0]
    apply List.map_congr_left
    intro i _
    simp [sample_mod]
  · rw [hr, hp0]
    apply List.map_congr_left
    intro i _
    simp [sample_mod]

/-- An instance of `looping_playback`: the stereo source of 3 samples looped over blocks
of 2, 0 and 5 samples. -/
theorem looping_playback_witness :
    ∃ s1 outs, (player stereo3 true 0).run_blocks [2, 0, 5] = Except.ok (s1, outs) ∧
      (outs.map BlockOut.l_out).flatten = [⟨100⟩, ⟨101⟩, ⟨102⟩, ⟨100⟩, ⟨101⟩, ⟨102⟩, ⟨100⟩] ∧
      (outs.map BlockOut.r_out).flatten = [⟨200⟩, ⟨201⟩, ⟨202⟩, ⟨200⟩, ⟨201⟩, ⟨202⟩, ⟨200⟩] ∧
      (∀ o ∈ outs, o.messages = []) := by
  obtain ⟨s1, outs, hrun, _, hl, hr, hm⟩ :=
    looping_playback (player stereo3 true 0) stereo3 rfl rfl (by decide) (by decide)
      (by decide) rfl [2, 0, 5]
  exact ⟨s1, outs, hrun, by rw [hl]; decide, by rw [hr]; decide, hm⟩

/-! ## The stopped state -/

/-- C3: with `loop = false` the stopped state is absorbing.  In the stopped state
(`_playing = false`, `_pos >= num_samples`) a run of any block size pushes no
message, writes `0.0` to every sample of both output ports and leaves the processor
(position, playing flag and all other fields) unchanged.  A run that pushes a
message leaves the processor in the stopped state.  Hence over any sequence of
blocks following one successful `setup` at most one completion message is pushed. -/
theorem stopped_absorbing (af : AudioFile) (hC : 1 ≤ af.num_channels)
    (hL : af.num_samples < 4294967296) :
    (∀ (self : ProcessorSoundFile) (ctxt : BlockContext), self._audio_file = some af →
      self._loop = false → self._playing = false → af.num_samples ≤ self._pos →
      self.run ctxt =
        Except.ok ⟨self, ctxt, List.replicate ctxt.block_size Float32.zero,
          List.replicate ctxt.block_size Float32.zero, Status.Ok⟩) ∧
    (∀ (self : ProcessorSoundFile) (ctxt : BlockContext) (r : RunResult),
      self._audio_file = some af → self._loop = false → self.run ctxt = Except.ok r →
      r.ctxt.out_messages ≠ ctxt.out_messages →
      r.self._loop = false ∧ r.self._playing = false ∧ af.num_samples ≤ r.self._pos) ∧
    (∀ (self0 : ProcessorSoundFile) (path : String) (load : String → StatusOr AudioFile)
      (Bs : List Nat), load path = Except.ok af →
      ∃ s1 outs,
        (self0.setup Status.Ok (Except.ok path) load).2.run_blocks Bs = Except.ok (s1, outs) ∧
        (outs.map BlockOut.messages).flatten.length ≤ 1) := by
  refine ⟨?_, ?_, ?_⟩
  · intro self ctxt haf hloop hplay hpos
    rw [run_prologue self af ctxt haf hC]
    obtain ⟨nid, f, lp, pl, p, buf⟩ := self
    simp only at haf hloop hplay hpos
    subst hloop hplay
    simp only [run_loop_stopped af _ _ _ _ _ _ _ _ _ _ hpos, List.nil_append]
  · intro self ctxt r haf hloop hrun hne
    rw [run_noloop self af ctxt haf hloop hC hL] at hrun
    simp only [Except.ok.injEq] at hrun
    subst hrun
    simp only at hne
    by_cases hc : self._playing = true ∧ 0 < ctxt.block_size ∧
        af.num_samples < self._pos + ctxt.block_size
    · have hd : decide (ctxt.block_size = 0 ∨ self._pos + ctxt.block_size ≤ af.num_samples) =
          false := decide_eq_false (by omega)
      refine ⟨hloop, ?_, ?_⟩
      · simp only [hd, Bool.and_false]
      · simp only
        omega
    · rw [if_neg hc, List.append_nil] at hne
      exact absurd rfl hne
  · intro self0 path load Bs hload
    rw [setup_ok_state self0 path load af hload]
    obtain ⟨s1, outs, hrun, _, hmsg, _⟩ :=
      run_blocks_noloop af hC hL Bs ⟨self0.node_id, some af, false, true, 0, self0._buf⟩ rfl rfl
    refine ⟨s1, outs, hrun, ?_⟩
    simpa using hmsg

/-- An instance of `stopped_absorbing`: the stopped processor of the mono source runs a
block of 3 samples as silence without any change. -/
theorem stopped_absorbing_witness :
    1 ≤ mono4.num_channels ∧ mono4.num_samples < 4294967296 ∧
    (stopped mono4).run ⟨3, []⟩ =
      Except.ok ⟨stopped mono4, ⟨3, []⟩, [⟨0⟩, ⟨0⟩, ⟨0⟩], [⟨0⟩, ⟨0⟩, ⟨0⟩], Status.Ok⟩ :=
  ⟨by decide, by decide,
    (stopped_absorbing mono4 (by decide) (by decide)).1 (stopped mono4) ⟨3, []⟩ rfl rfl rfl
      (Nat.le_refl _)⟩

/-! ## Channel mapping -/

/-- C4: channel mapping and per-block output with `loop = false`.  For a source with
`C >= 1` channels and `L` samples (a `uint32` value), a block of size `B` started
at any position `p` (in particular `p <= L`) writes, for every `i < B`,
`left[i] = channel 0 at p + i` and `right[i] = channel (1 mod C) at p + i` when
`p + i < L`, and `left[i] = right[i] = 0.0` when `p + i >= L`.  For a mono source
the two ports are identical; for `C >= 2` the right port is channel 1. -/
theorem channel_mapping (self : ProcessorSoundFile) (af : AudioFile) (ctxt : BlockContext)
    (haf : self._audio_file = some af) (hloop : self._loop = false)
    (hC : 1 ≤ af.num_channels) (hL : af.num_samples < 4294967296) :
    ∃ r, self.run ctxt = Except.ok r ∧
      r.l_out = (List.range ctxt.block_size).map (fun i =>
        if self._pos + i < af.num_samples then af.data 0 (self._pos + i) else Float32.zero) ∧
      r.r_out = (List.range ctxt.block_size).map (fun i =>
        if self._pos + i < af.num_samples then af.data (1 % af.num_channels) (self._pos + i)
        else Float32.zero) ∧
      (af.num_channels = 1 → r.r_out = r.l_out) ∧
      (2 ≤ af.num_channels → r.r_out = (List.range ctxt.block_size).map (fun i =>
        if self._pos + i < af.num_samples then af.data 1 (self._pos + i) else Float32.zero)) := by
  refine ⟨_, run_noloop self af ctxt haf hloop hC hL, rfl, rfl, ?_, ?_⟩
  · intro h1
    simp only [h1, Nat.mod_self]
  · intro h2
    simp only [Nat.mod_eq_of_lt h2]
    rfl

/-- An instance of `channel_mapping`: a block of 3 samples at position 1 of the stereo
source of 3 samples. -/
theorem channel_mapping_witness :
    ∃ r, (player stereo3 false 1).run ⟨3, []⟩ = Except.ok r ∧
      r.l_out = [⟨101⟩, ⟨102⟩, ⟨0⟩] ∧ r.r_out = [⟨201⟩, ⟨202⟩, ⟨0⟩] := by
  obtain ⟨r, hr, hl, hrr, _, _⟩ :=
    channel_mapping (player stereo3 false 1) stereo3 ⟨3, []⟩ rfl rfl (by decide) (by decide)
  exact ⟨r, hr, by rw [hl]; decide, by rw [hrr]; decide⟩

/-! ## `connect_port` -/

/-- C5: `connect_port` returns an error if and only if `port_idx > 1`.  On error the
processor is unchanged (no port binding, no playback field).  On success
(`port_idx` is 0 or 1) the binding of port `port_idx` becomes `buf`, the binding of
the other port is unchanged, and so are `_pos`, `_playing`, `_loop` (and the audio
file and node id). -/
theorem connect_port_contract (self : ProcessorSoundFile) (port_idx : Nat) (buf : BufferPtr) :
    ((self.connect_port port_idx buf).1.is_error = true ↔ port_idx > 1) ∧
    (port_idx > 1 → (self.connect_port port_idx buf).2 = self) ∧
    (∀ h : port_idx < 2,
      (self.connect_port port_idx buf).1 = Status.Ok ∧
      (self.connect_port port_idx buf).2._buf ⟨port_idx, h⟩ = buf ∧
      (∀ j : Fin 2, j.val ≠ port_idx →
        (self.connect_port port_idx buf).2._buf j = self._buf j) ∧
      (self.connect_port port_idx buf).2._pos = self._pos ∧
      (self.connect_port port_idx buf).2._playing = self._playing ∧
      (self.connect_port port_idx buf).2._loop = self._loop ∧
      (self.connect_port port_idx buf).2._audio_file = self._audio_file ∧
      (self.connect_port port_idx buf).2.node_id = self.node_id) := by
  by_cases hgt : port_idx > 1
  · refine ⟨?_, ?_, ?_⟩
    · simp [ProcessorSoundFile.connect_port, hgt, ERROR_STATUS, Status.is_error]
    · intro _
      simp [ProcessorSoundFile.connect_port, hgt]
    · intro h
      omega
  · refine ⟨?_, ?_, ?_⟩
    · simp [ProcessorSoundFile.connect_port, hgt, Status.is_error]
    · intro h
      exact absurd h hgt
    · intro h
      simp only [ProcessorSoundFile.connect_port, hgt, dite_false, Function.update_same,
        true_and, and_true]
      intro j hj
      apply Function.update_noteq
      intro hj2
      apply hj
      rw [hj2]

/-! ## The position -/

/-- C6: position monotonicity.  For a source of length `L` (a `uint32` value) and a
start position `p <= L`: with `loop = false` the position after a run of a block of
size `B` is `min (p + B) L`, and after any sequence of blocks it is
`min (p + sum of the block sizes) L`, so it never decreases and never exceeds `L`.
With `loop = true` (and `L >= 1`) the position after a run is `p + B` as long as
that is `<= L` and `(p + B - 1) mod L + 1` once the run has passed `L`; it stays
`<= L`, a run lowers it only if it went past `L`, and a single loop iteration lowers
it only by the wrap: the position had reached `L`, was set to 0 and advanced to 1. -/
theorem position_monotone (self : ProcessorSoundFile) (af : AudioFile)
    (haf : self._audio_file = some af) (hC : 1 ≤ af.num_channels)
    (hL : af.num_samples < 4294967296) (hp : self._pos ≤ af.num_samples) :
    (self._loop = false →
      (∀ ctxt : BlockContext, ∃ r, self.run ctxt = Except.ok r ∧
        r.self._pos = min (self._pos + ctxt.block_size) af.num_samples) ∧
      (∀ Bs : List Nat, ∃ s1 outs, self.run_blocks Bs = Except.ok (s1, outs) ∧
        s1._pos = min (self._pos + Bs.sum) af.num_samples ∧
        self._pos ≤ s1._pos ∧ s1._pos ≤ af.num_samples)) ∧
    (self._loop = true → 1 ≤ af.num_samples →
      (∀ ctxt : BlockContext, ∃ r, self.run ctxt = Except.ok r ∧
        r.self._pos =
          (if self._pos + ctxt.block_size ≤ af.num_samples then self._pos + ctxt.block_size
           else (self._pos + ctxt.block_size - 1) % af.num_samples + 1) ∧
        r.self._pos ≤ af.num_samples ∧
        (r.self._pos < self._pos → af.num_samples < self._pos + ctxt.block_size)) ∧
      (∀ (l r : Nat) (q : List Message) (lo ro : List Float32) (st1 : RunState),
        ProcessorSoundFile.run_body af l r ⟨self, q, lo, ro⟩ = Except.ok st1 →
        st1.self._pos < self._pos → self._pos = af.num_samples ∧ st1.self._pos = 1)) := by
  refine ⟨?_, ?_⟩
  · intro hloop
    refine ⟨?_, ?_⟩
    · intro ctxt
      refine ⟨_, run_noloop self af ctxt haf hloop hC hL, ?_⟩
      simp only
      omega
    · intro Bs
      obtain ⟨s1, outs, hrun, hpos, _, _⟩ := run_blocks_noloop af hC hL Bs self haf hloop
      refine ⟨s1, outs, hrun, ?_, ?_, ?_⟩ <;> omega
  · intro hloop h1
    refine ⟨?_, ?_⟩
    · intro ctxt
      refine ⟨_, run_looping self af ctxt haf hloop hC hL h1 hp, rfl, loop_pos_le _ _ _ h1, ?_⟩
      simp only [loop_pos]
      split_ifs with h
      · omega
      · omega
    · intro l r q lo ro st1 hb hlt
      obtain ⟨nid, f, lp, pl, p, buf⟩ := self
      simp only at haf hloop hp hlt
      subst hloop
      by_cases hlt2 : p < af.num_samples
      · have hmod : (p + 1) % 4294967296 = p + 1 := Nat.mod_eq_of_lt (by omega)
        simp [ProcessorSoundFile.run_body, ProcessorSoundFile.run_copy, AudioFile.read, hlt2,
          Nat.not_le.mpr hlt2, hmod] at hb
        subst hb
        simp only at hlt
        omega
      · have hge : af.num_samples ≤ p := Nat.not_lt.mp hlt2
        have h0 : 0 < af.num_samples := h1
        simp [ProcessorSoundFile.run_body, ProcessorSoundFile.run_copy, AudioFile.read, hge,
          h0] at hb
        subst hb
        exact ⟨Nat.le_antisymm hp hge, rfl⟩

/-- An instance of `position_monotone`: from position 1 of the mono source of 4
samples a non-looping block of 7 samples ends at position 4. -/
theorem position_monotone_witness :
    ∃ r, (player mono4 false 1).run ⟨7, []⟩ = Except.ok r ∧ r.self._pos = 4 :=
  ((position_monotone (player mono4 false 1) mono4 rfl (by decide) (by decide)
    (by decide)).1 rfl).1 ⟨7, []⟩

/-! ## Timing of the completion message -/

/-- C8: timing of the completion message.  With `loop = false`, from the state left
by a successful `setup`, for every source length `L` (a `uint32` value) and every
constant block size `B >= 1`, the completion message is pushed during block number
`L / B + 1` (counting from 1) and in no other block: block `k + 1` pushes exactly
the one message if `k + 1 = L / B + 1` and nothing otherwise.  That block is the
first one that requests a sample at a global index `>= L`: the blocks before it end
at `(L / B) * B <= L`, and it ends at `(L / B + 1) * B > L`. -/
theorem completion_message_timing (self0 : ProcessorSoundFile) (path : String)
    (load : String → StatusOr AudioFile) (af : AudioFile) (hload : load path = Except.ok af)
    (hC : 1 ≤ af.num_channels) (hL : af.num_samples < 4294967296) (B : Nat) (hB : 1 ≤ B)
    (N : Nat) :
    (∃ s1 outs,
      (self0.setup Status.Ok (Except.ok path) load).2.run_blocks (List.replicate N B) =
        Except.ok (s1, outs) ∧
      outs.map BlockOut.messages =
        (List.range N).map (fun k =>
          if k + 1 = af.num_samples / B + 1 then
            [Message.SoundFileCompleteMessage self0.node_id] else [])) ∧
    (af.num_samples / B) * B ≤ af.num_samples ∧
    af.num_samples < (af.num_samples / B + 1) * B := by
  refine ⟨?_, Nat.div_mul_le_self _ _, (Nat.div_lt_iff_lt_mul hB).mp (Nat.lt_succ_self _)⟩
  rw [setup_ok_state self0 path load af hload]
  refine ⟨_, _, run_blocks_setup af hC hL B hB self0.node_id self0._buf N, ?_⟩
  rw [List.map_map]
  apply List.map_congr_left
  intro k _
  simp [const_block]

/-- An instance of `completion_message_timing`: the mono source of 4 samples in blocks of
3 pushes its completion message in block number `4 / 3 + 1 = 2`. -/
theorem completion_message_timing_witness :
    ∃ s1 outs,
      (fresh.setup Status.Ok (Except.ok "a.wav") (load_one mono4)).2.run_blocks
          (List.replicate 4 3) = Except.ok (s1, outs) ∧
      outs.map BlockOut.messages = [[], [Message.SoundFileCompleteMessage "node"], [], []] := by
  obtain ⟨⟨s1, outs, hrun, hm⟩, _⟩ :=
    completion_message_timing fresh "a.wav" (load_one mono4) mono4 rfl (by decide) (by decide)
      3 (by decide) 4
  exact ⟨s1, outs, hrun, by rw [hm]; decide⟩

/-! ## Block-split invariance -/

/-- C9: block-split invariance of `run`.  For every processor state, every source,
every message queue and all block sizes `B1`, `B2` (in particular whenever `B1 + B2`
does not overflow `uint32`), running a block of size `B1` and then, on the state and queue it leaves, a block of
size `B2` gives the same final state, the same message queue and the concatenation
of the outputs as running one block of size `B1 + B2`; when one side hits a fault so
does the other, with the same fault. -/
theorem run_block_split (self : ProcessorSoundFile) (q : List Message) (B1 B2 : Nat) :
    self.run ⟨B1 + B2, q⟩ =
      match self.run ⟨B1, q⟩ with
      | Except.error e => Except.error e
      | Except.ok r1 =>
        match r1.self.run ⟨B2, r1.ctxt.out_messages⟩ with
        | Except.error e => Except.error e
        | Except.ok r2 =>
          Except.ok
            { self := r2.self
              ctxt := ⟨B1 + B2, r2.ctxt.out_messages⟩
              l_out := r1.l_out ++ r2.l_out
              r_out := r1.r_out ++ r2.r_out
              status := r2.status } := by
  cases haf : self._audio_file with
  | none => simp [ProcessorSoundFile.run, haf]
  | some af =>
    by_cases hC : af.num_channels = 0
    · simp [ProcessorSoundFile.run, haf, AudioFile.channel_data, hC]
    · have hC1 : 1 ≤ af.num_channels := Nat.pos_of_ne_zero hC
      rw [run_prologue self af ⟨B1 + B2, q⟩ haf hC1, run_prologue self af ⟨B1, q⟩ haf hC1]
      simp only [run_loop_add af 0 (1 % af.num_channels) B2 B1]
      cases h1 : ProcessorSoundFile.run_loop af 0 (1 % af.num_channels) B1 ⟨self, q, [], []⟩ with
      | error e => rfl
      | ok st1 =>
        have haf1 : st1.self._audio_file = some af := by
          rw [run_loop_audio_file af 0 (1 % af.num_channels) B1 _ st1 h1]
          exact haf
        simp only [run_prologue st1.self af ⟨B2, st1.out_messages⟩ haf1 hC1]
        have hfr := run_loop_frame af 0 (1 % af.num_channels) st1.l_out st1.r_out B2
          st1.self st1.out_messages [] []
        simp only [List.append_nil] at hfr
        rw [show st1 = ⟨st1.self, st1.out_messages, st1.l_out, st1.r_out⟩ from rfl, hfr]
        cases h2 : ProcessorSoundFile.run_loop af 0 (1 % af.num_channels) B2
            ⟨st1.self, st1.out_messages, [], []⟩ with
        | error e => rfl
        | ok st2 => rfl

/-! ## Index safety -/

/-- C10: index safety of `run`.  If the source has at least one channel, the start
position satisfies `p <= L`, and either `loop = false` or `L >= 1`, then for every
block size the run hits no fault, that is, every read of the source is at a channel
index `< num_channels` and a sample index `< L`; exactly `block_size` samples are
written to each of the two output ports; the run returns `Status::Ok()`; and the
position is again `<= L`. -/
theorem index_safety (self : ProcessorSoundFile) (af : AudioFile) (ctxt : BlockContext)
    (haf : self._audio_file = some af) (hC : 1 ≤ af.num_channels)
    (hp : self._pos ≤ af.num_samples)
    (hl : self._loop = false ∨ 1 ≤ af.num_samples) :
    ∃ r, self.run ctxt = Except.ok r ∧ r.status = Status.Ok ∧
      r.l_out.length = ctxt.block_size ∧ r.r_out.length = ctxt.block_size ∧
      r.self._pos ≤ af.num_samples := by
  obtain ⟨st1, hrun, hp1, _, hlo, hro⟩ :=
    run_loop_safe af 0 (1 % af.num_channels) ctxt.block_size ⟨self, ctxt.out_messages, [], []⟩
      hp hl
  refine ⟨⟨st1.self, { ctxt with out_messages := st1.out_messages }, st1.l_out, st1.r_out,
    Status.Ok⟩, ?_, rfl, ?_, ?_, hp1⟩
  · rw [run_prologue self af ctxt haf hC, hrun]
  · simpa using hlo
  · simpa using hro

/-- An instance of `index_safety`: a looping block of 5 samples over the stereo source
of 3 samples, started at its end. -/
theorem index_safety_witness :
    ∃ r, (player stereo3 true 3).run ⟨5, []⟩ = Except.ok r ∧ r.status = Status.Ok ∧
      r.l_out.length = 5 ∧ r.r_out.length = 5 ∧ r.self._pos ≤ 3 :=
  index_safety (player stereo3 true 3) stereo3 ⟨5, []⟩ rfl (by decide) (by decide)
    (Or.inr (by decide))

/-! ## Spec hot-swap -/

/-- C7: spec hot-swap over the slots `_next_spec`, `_current_spec`, `_old_spec`.  In
every interleaving of a control thread that publishes specs (and reclaims) with a
real-time thread that runs blocks: the generations the real-time thread observes
form a non-decreasing sequence; the generation it holds during a block is the
current one and is never a reclaimed one; the final generation `N` is the number of
specs published; and once the final spec is published (no publish follows), every
generation read afterwards is `N`, and the first block that starts after its
publication holds `N`. -/
theorem spec_hot_swap :
    (∀ sched : List Event,
      List.Pairwise (fun a b => a ≤ b) (run_schedule sched).observed) ∧
    (∀ (sched : List Event) (g : Nat), (run_schedule sched).held = some g →
      (run_schedule sched)._current_spec = some g ∧ g ∉ (run_schedule sched).freed) ∧
    (∀ sched : List Event, (run_schedule sched).published = sched.count Event.publish) ∧
    (∀ pre post : List Event, (∀ e ∈ post, e ≠ Event.publish) →
      (∃ k, (run_schedule (pre ++ (Event.publish :: post))).observed =
        (run_schedule (pre ++ [Event.publish])).observed ++
          List.replicate k (pre.count Event.publish + 1)) ∧
      ((run_schedule (pre ++ (Event.publish :: post))).in_block = false →
        (run_schedule ((pre ++ (Event.publish :: post)) ++ [Event.block_begin])).held =
          some (pre.count Event.publish + 1))) := by
  have hinv : ∀ sched : List Event, SwapInv (run_schedule sched) := fun sched =>
    swap_inv_foldl sched SwapState.init swap_inv_init
  have hpub : ∀ sched : List Event,
      (run_schedule sched).published = sched.count Event.publish := by
    intro sched
    have h := published_foldl sched SwapState.init
    simp only [SwapState.init, Nat.zero_add] at h
    exact h
  refine ⟨fun sched => (hinv sched).obs_sorted, ?_, hpub, ?_⟩
  · intro sched g hg
    have hc := (hinv sched).held_cur g hg
    exact ⟨hc, (hinv sched).cur_live g hc⟩
  · intro pre post hpost
    have hsplit : run_schedule (pre ++ (Event.publish :: post)) =
        post.foldl SwapState.step (run_schedule (pre ++ [Event.publish])) := by
      simp only [run_schedule, List.foldl_append, List.foldl_cons, List.foldl_nil]
    have hnext : (run_schedule (pre ++ [Event.publish]))._next_spec =
        some (pre.count Event.publish + 1) := by
      simp only [run_schedule, List.foldl_append, List.foldl_cons, List.foldl_nil,
        SwapState.step, SwapState.publish]
      rw [← hpub pre]
      rfl
    obtain ⟨hfin, k, hk⟩ :=
      final_foldl (pre.count Event.publish + 1) post hpost _ (Or.inl hnext)
    rw [← hsplit] at hfin hk
    refine ⟨⟨k, hk⟩, ?_⟩
    intro hib
    have hlast : run_schedule ((pre ++ (Event.publish :: post)) ++ [Event.block_begin]) =
        (run_schedule (pre ++ (Event.publish :: post))).block_begin := by
      simp only [run_schedule, List.foldl_append, List.foldl_cons, List.foldl_nil,
        SwapState.step]
    rw [hlast]
    rcases hfin with h1 | ⟨h1, h2⟩
    · simp [SwapState.block_begin, SwapState.adopt, hib, h1]
    · simp [SwapState.block_begin, SwapState.adopt, hib, h1, h2]

/-- An instance of `spec_hot_swap`: three specs published while blocks run; the block
that starts after the last publication holds generation 3, which is not reclaimed. -/
theorem spec_hot_swap_witness :
    (∀ e ∈ [Event.block_end, Event.reclaim, Event.block_begin, Event.block_end, Event.reclaim],
      e ≠ Event.publish) ∧
    (run_schedule sched3).observed = [1, 3, 3] ∧
    (run_schedule sched3).freed = [1, 2] ∧
    (run_schedule sched3).held = some 3 ∧
    3 ∉ (run_schedule sched3).freed :=
  ⟨by decide, rfl, rfl,
    (spec_hot_swap.2.2.2 [Event.publish, Event.block_begin, Event.publish]
      [Event.block_end, Event.reclaim, Event.block_begin, Event.block_end, Event.reclaim]
      (by decide)).2 rfl,
    (spec_hot_swap.2.1 sched3 3 rfl).2⟩

end noisicaa
